import Mathlib

/-!
Verification of the name-extraction heuristic and orchestration logic of
`extract_audio.py` (utility-mp4tomp3).

The development shallowly embeds the pure fragment of the script over
`List Char` (ASCII): Python's `str` windows (`text[:500]`, `[:200]`),
`str.split()`, `re.sub(r'[^\w]','',...)`, the five priority regular
expressions evaluated by `re.search(..., re.IGNORECASE)`, the stopword
filtering, the positional fallback scan, the filename sanitization of
`process_video`, the skip-on-collision file handling, and the cleanup
behaviour of `transcribe_audio` (as a small effect model).

Character classes model the ASCII fragment of Python's semantics: the
transcripts and names handled by the claims are ASCII, and on ASCII input
Python's `[A-Z]`/`[a-z]` (with `re.IGNORECASE`), `\s`, `\w`, `str.split`,
`str.lower`, `str.isupper` agree with the definitions below.
-/

namespace ExtractAudio

/-- ASCII letter: what `[A-Z][a-z]+` can consume under `re.IGNORECASE`. -/
def isLetterA (c : Char) : Bool :=
  (65 ≤ c.toNat && c.toNat ≤ 90) || (97 ≤ c.toNat && c.toNat ≤ 122)

/-- ASCII whitespace: Python's `\s` (space, tab, newline, CR, FF, VT). -/
def isWsA (c : Char) : Bool :=
  c.toNat = 32 || c.toNat = 9 || c.toNat = 10 || c.toNat = 13 || c.toNat = 12 || c.toNat = 11

/-- ASCII digit. -/
def isDigitA (c : Char) : Bool := 48 ≤ c.toNat && c.toNat ≤ 57

/-- Python's `\w` on ASCII: letter, digit or underscore. -/
def isWordCharA (c : Char) : Bool := isLetterA c || isDigitA c || c.toNat = 95

/-- ASCII uppercase letter: Python's `str.isupper` on one ASCII character. -/
def isUpperA (c : Char) : Bool := 65 ≤ c.toNat && c.toNat ≤ 90

/-- ASCII lowercasing of one character: Python's `str.lower` on ASCII. -/
def lowerC (c : Char) : Char :=
  if 65 ≤ c.toNat && c.toNat ≤ 90 then Char.ofNat (c.toNat + 32) else c

/-- `str.lower` over a whole token. -/
def toLowerL (s : List Char) : List Char := s.map lowerC

/-- One pass of `str.split()`: `acc` holds the reversed current word. -/
def pySplitAux : List Char → List Char → List (List Char)
  | [], acc => if acc.isEmpty then [] else [acc.reverse]
  | c :: t, acc =>
    if isWsA c then
      if acc.isEmpty then pySplitAux t [] else acc.reverse :: pySplitAux t []
    else pySplitAux t (c :: acc)

/-- Python `str.split()`: split on runs of whitespace, discarding empties. -/
def pySplit (s : List Char) : List (List Char) := pySplitAux s []

/-- `re.sub(r'[^\w]', '', name)`: strip every non-word character. -/
def stripNonWord (s : List Char) : List Char := s.filter isWordCharA

/-- The `skip_words` set of `find_first_name` (source lines 127-139),
exactly as listed there (the source list has mixed-case duplicates). -/
def skip_words : List String :=
  ["The", "This", "That", "There", "Here", "Hello", "Hi", "Hey", "My", "my", "I", "We", "You",
   "Everybody", "Everyone", "Anyone", "Someone", "Something", "Somewhere", "Today",
   "Tomorrow", "Yesterday", "Now", "Then", "When", "Where", "What", "Who", "Why", "How",
   "Video", "Intro", "Introduction", "About", "Me", "Just", "just", "And", "Or", "But",
   "Senior", "Junior", "Sophomore", "Freshman", "Undergrad", "Grad", "Team", "Year",
   "Been", "Have", "Has", "Had", "Was", "Were", "Is", "Are", "Am", "Be", "Being",
   "In", "On", "At", "To", "For", "From", "With", "By", "Of", "As", "An", "A",
   "First", "Last", "Next", "Previous", "Current", "New", "Old", "Good", "Bad",
   "Little", "Big", "Many", "Much", "Some", "Any", "All", "Each", "Every", "Both",
   "College", "University", "School", "Semester", "Class", "Course", "Shop", "Two",
   "Raised", "Born", "From", "Living", "Working", "Doing", "Going", "Getting"]

/-- `skip_words_lower = {w.lower() for w in skip_words}` (source line 142). -/
def skip_words_lower : List (List Char) := skip_words.map (fun w => toLowerL w.data)

/-- `name[0].isupper()` / `clean_word[0].isupper()`: nonempty and the first
character an ASCII uppercase letter. -/
def startsUpper : List Char → Bool
  | [] => false
  | c :: _ => isUpperA c

/-- The candidate validation both phases of `find_first_name` apply (source
lines 165-167 and 174-180; both check the same four conditions, only the
short-circuit order differs): nonempty, length > 2, lowercase form not a
stopword, first character uppercase. -/
def validName (n : List Char) : Bool :=
  !n.isEmpty && decide (2 < n.length) && !(decide (toLowerL n ∈ skip_words_lower)) &&
    startsUpper n

/-! ## The five priority patterns as a tiny regex engine

Each source pattern is a sequence of: case-insensitive literals, `\s+`,
a single capturing group `([A-Z][a-z]+)` and (for the first pattern) a
trailing `\b`.  In every pattern the character class of each token is
disjoint from the first character of the next token, so Python's
backtracking search is equivalent to the greedy, deterministic consumption
implemented here: the group takes the maximal letter run (length ≥ 2),
`\s+` the maximal whitespace run (length ≥ 1).  `re.search` tries match
start positions left to right (`reSearch`). -/

inductive RTok where
  | lit : List Char → RTok
  | ws1 : RTok
  | cap : RTok
  | wb : RTok

/-- Consume a case-insensitive literal, returning the consumed source text
(source casing preserved, as `match.group` does) and the remainder. -/
def stripCI : List Char → List Char → Option (List Char × List Char)
  | [], s => some ([], s)
  | _ :: _, [] => none
  | c :: w, d :: s =>
    if lowerC c = lowerC d then
      match stripCI w s with
      | some (m, r) => some (d :: m, r)
      | none => none
    else none

/-- `\b` after a word character: the next character is absent or non-word. -/
def wbOk : List Char → Bool
  | [] => true
  | c :: _ => !isWordCharA c

/-- Match a token sequence at the start of `s`; on success return the whole
matched text (`match.group(0)`) and the text of the capturing group
(`match.group(1)`), if any. -/
def matchToks : List RTok → List Char → Option (List Char × Option (List Char))
  | [], _ => some ([], none)
  | RTok.lit w :: ts, s =>
    match stripCI w s with
    | some (m, r) =>
      match matchToks ts r with
      | some (m2, cap2) => some (m ++ m2, cap2)
      | none => none
    | none => none
  | RTok.ws1 :: ts, s =>
    let run := s.takeWhile isWsA
    if run.isEmpty then none
    else
      match matchToks ts (s.dropWhile isWsA) with
      | some (m2, cap2) => some (run ++ m2, cap2)
      | none => none
  | RTok.cap :: ts, s =>
    let run := s.takeWhile isLetterA
    if run.length < 2 then none
    else
      match matchToks ts (s.dropWhile isLetterA) with
      | some (m2, _) => some (run ++ m2, some run)
      | none => none
  | RTok.wb :: ts, s => if wbOk s then matchToks ts s else none

/-- `re.search`: try each start position left to right, first success wins. -/
def reSearch (toks : List RTok) : List Char → Option (List Char × Option (List Char))
  | [] => matchToks toks []
  | c :: rest =>
    match matchToks toks (c :: rest) with
    | some r => some r
    | none => reSearch toks rest

/-- The literal `here`. -/
def hereL : List Char := ['h', 'e', 'r', 'e']

/-- `([A-Z][a-z]+)\s+here\b` (source line 147). -/
def pat1 : List RTok := [RTok.cap, RTok.ws1, RTok.lit hereL, RTok.wb]

/-- `my\s+name\s+is\s+([A-Z][a-z]+)` (source line 148). -/
def pat2 : List RTok :=
  [RTok.lit ['m', 'y'], RTok.ws1, RTok.lit ['n', 'a', 'm', 'e'], RTok.ws1,
   RTok.lit ['i', 's'], RTok.ws1, RTok.cap]

/-- `i\s+am\s+([A-Z][a-z]+)` (source line 149). -/
def pat3 : List RTok :=
  [RTok.lit ['i'], RTok.ws1, RTok.lit ['a', 'm'], RTok.ws1, RTok.cap]

/-- `i'm\s+([A-Z][a-z]+)` (source line 150); the apostrophe is `\x27`. -/
def pat4 : List RTok := [RTok.lit ['i', '\x27', 'm'], RTok.ws1, RTok.cap]

/-- `this\s+is\s+([A-Z][a-z]+)` (source line 151). -/
def pat5 : List RTok :=
  [RTok.lit ['t', 'h', 'i', 's'], RTok.ws1, RTok.lit ['i', 's'], RTok.ws1, RTok.cap]

/-- The ordered `priority_patterns` list with each pattern's `group_idx`
(source lines 146-152). -/
def priority_patterns : List (List RTok × Nat) :=
  [(pat1, 0), (pat2, 1), (pat3, 1), (pat4, 1), (pat5, 1)]

/-- From a match, the candidate name (source lines 158-163):
`name_part = match.group(group_idx)` (all five patterns have a group, so
the `if match.groups()` guard always takes this branch), then
`name_part.split()[0]`, then `re.sub(r'[^\w]','',name)`.  A matched
`name_part` is never empty nor all-whitespace (group 1 is a letter run and
group 0 starts with one), so `headD []` models the `[0]` indexing; an empty
candidate is rejected by `validName` exactly like the `if name_part` guard. -/
def patCandidate (groupIdx : Nat) (whole : List Char) (capt : Option (List Char)) :
    List Char :=
  let namePart := if groupIdx = 0 then whole else capt.getD []
  stripNonWord ((pySplit namePart).headD [])

/-- The priority-pattern loop (source lines 154-168): first *valid* match
wins; a pattern that does not match, or matches with an invalid candidate,
passes control to the next pattern. -/
def tryPriority : List (List RTok × Nat) → List Char → Option (List Char)
  | [], _ => none
  | (p, gi) :: ps, intro =>
    match reSearch p intro with
    | some (whole, capt) =>
      let name := patCandidate gi whole capt
      if validName name then some name else tryPriority ps intro
    | none => tryPriority ps intro

/-- `words[i]`-style indexing of the split word list: `nthWord ws i = some w`
iff `i < len(words)` and `words[i] = w`. -/
def nthWord : List (List Char) → Nat → Option (List Char)
  | [], _ => none
  | w :: _, 0 => some w
  | _ :: t, n + 1 => nthWord t n

/-- The fallback loop body (source lines 170-182): iterate over
`words[:15]` carrying the index `i`; a word whose stripped form passes
`validName` is returned iff `i + 1 < len(words)` and the stripped next word
also passes; otherwise the scan continues. -/
def fbLoop (ws : List (List Char)) : List (List Char) → Nat → Option (List Char)
  | [], _ => none
  | w :: rest, i =>
    let cw := stripNonWord w
    if validName cw then
      match nthWord ws (i + 1) with
      | some nw => if validName (stripNonWord nw) then some cw else fbLoop ws rest (i + 1)
      | none => fbLoop ws rest (i + 1)
    else fbLoop ws rest (i + 1)

/-- The fallback scan (source lines 170-182): `words = intro_text[:200].split()`,
then scan `words[:15]` from index 0. -/
def fallbackScan (intro : List Char) : Option (List Char) :=
  let ws := pySplit (intro.take 200)
  fbLoop ws (ws.take 15) 0

/-- `find_first_name` (source lines 121-184): restrict to the first 500
characters, try the priority patterns, otherwise the fallback scan,
otherwise `None`. -/
def find_first_name (text : List Char) : Option (List Char) :=
  let intro_text := text.take 500
  match tryPriority priority_patterns intro_text with
  | some n => some n
  | none => fallbackScan intro_text

/-! ## The naming and file handling of `process_video` (source lines 186-276)

Only the pure post-transcription fragment is embedded: the target filename
computation (lines 234-240 and 258-259) and the collision/skip handling
(lines 242-253 and 261-271), over a small association-list file-system
model.  The audio extraction and transcription calls are external
collaborators. -/

/-- A character kept by `re.sub(r'[^\w\s-]', '', name)` (source line 238). -/
def keepChar (c : Char) : Bool := isWordCharA c || isWsA c || c.toNat = 45

/-- Python `str.strip()`: drop leading and trailing whitespace. -/
def pyStrip (s : List Char) : List Char :=
  ((s.dropWhile isWsA).reverse.dropWhile isWsA).reverse

/-- A character of the class `[-\s]` (source line 239). -/
def isDashWs (c : Char) : Bool := isWsA c || c.toNat = 45

/-- One pass of `re.sub(r'[-\s]+', '-', s)`: `inRun` is true while inside a
run of `[-\s]` characters already replaced by one hyphen. -/
def collapseAux : List Char → Bool → List Char
  | [], _ => []
  | c :: t, inRun =>
    if isDashWs c then
      if inRun then collapseAux t true else '-' :: collapseAux t true
    else c :: collapseAux t false

/-- `re.sub(r'[-\s]+', '-', s)` (source line 239): every maximal run of
whitespace/hyphen characters becomes a single hyphen. -/
def collapseDashWs (s : List Char) : List Char := collapseAux s false

/-- The target filename `process_video` computes.  This factors the shared
computation of the two source branches: with a name (lines 234-240)
`name.split()[0]`, then `re.sub(r'[^\w\s-]','',name).strip()`, then
`re.sub(r'[-\s]+','-',safe_name)`, then `f"{safe_name}.mp3"`; with no name
(lines 258-259) the constant `audio.mp3`. -/
def computeFinalName : Option (List Char) → List Char
  | some name =>
    let name1 := if name.isEmpty then name else (pySplit name).headD []
    let safe := collapseDashWs (pyStrip (name1.filter keepChar))
    safe ++ ['.', 'm', 'p', '3']
  | none => ['a', 'u', 'd', 'i', 'o', '.', 'm', 'p', '3']

/-- The directory holding the videos, as a path-to-content association list
(paths are unique keys; contents are abstract ids). -/
structure FS where
  files : List (List Char × Nat)

/-- Lookup of a path's content. -/
def lookupA : List (List Char × Nat) → List Char → Option Nat
  | [], _ => none
  | e :: t, p => if e.1 = p then some e.2 else lookupA t p

/-- Removal of a path (`Path.unlink`; a no-op when the path is absent,
matching the `if temp_mp3.exists()` guard before each `unlink`). -/
def removeA : List (List Char × Nat) → List Char → List (List Char × Nat)
  | [], _ => []
  | e :: t, p => if e.1 = p then removeA t p else e :: removeA t p

def fsLookup (fs : FS) (p : List Char) : Option Nat := lookupA fs.files p

def fsExists (fs : FS) (p : List Char) : Bool := (fsLookup fs p).isSome

def fsUnlink (fs : FS) (p : List Char) : FS := ⟨removeA fs.files p⟩

/-- `temp_mp3.rename(final_mp3)` — only invoked when the target is absent. -/
def fsRename (fs : FS) (src dst : List Char) : FS :=
  match lookupA fs.files src with
  | some v => ⟨(dst, v) :: removeA fs.files src⟩
  | none => fs

/-- The finalization step of `process_video` after a successful
transcription (source lines 231-276): compute the target name; if a file
already exists there, delete the temp file and return `True` (skip);
otherwise rename the temp file to the target and return `True`.  Both
source branches (name found / no name) perform exactly this with their
respective target names, which `computeFinalName` selects. -/
def finalizePhase (nameOpt : Option (List Char)) (fs : FS) (temp : List Char) : FS × Bool :=
  let final := computeFinalName nameOpt
  if fsExists fs final then (fsUnlink fs temp, true)
  else (fsRename fs temp final, true)

/-- The per-file tally of `main` (source lines 342-345): a `True` return
increments `successful`, a `False` return increments `failed`. -/
def tallyStep (result : Bool) (successful failed : Nat) : Nat × Nat :=
  if result then (successful + 1, failed) else (successful, failed + 1)

/-! ## The cleanup behaviour of `transcribe_audio` (source lines 61-119)

An effect model over oracle booleans for the external calls, tracking the
two resources the spec's cleanup contract concerns: the temporary ffmpeg
directory and the `PATH` entry pointing at it.  The decoder setup
(lines 64-82) is taken as succeeding: the temp directory exists and `PATH`
has been prepended with it.  `importOk` is whether `import whisper`
(line 85) succeeds; `firstOk` whether model load + transcription
(lines 87-92) then succeed; `retryOk` whether, after the `ImportError`
handler's `pip install` (lines 99-101), the retried load + transcription
(lines 103-108) succeed.  The source removes the temp directory on the two
success paths (lines 94-96, 110-112) and in the generic `except Exception`
handler (lines 116-118); an exception raised *inside* the `ImportError`
handler is not caught by the sibling `except Exception` clause, so that
path performs no cleanup; no path ever removes the `PATH` entry. -/

structure TOutcome where
  raised : Bool
  tempDirRemains : Bool
  pathStillModified : Bool

def transcribe_audio_model (importOk firstOk retryOk : Bool) : TOutcome :=
  if importOk then
    if firstOk then ⟨false, false, true⟩
    else ⟨true, false, true⟩
  else
    if retryOk then ⟨false, false, true⟩
    else ⟨true, true, true⟩

/-! ## Statement vocabulary for the fallback-scan claims

`fbSpec ws i n` is the property the spec states for the fallback result:
some index `k` (at or past `i`, below the 15-word cap) carries a qualifying
stripped word whose stripped successor also qualifies, `n` is that stripped
word, and no earlier index carries such a pair. -/

/-- The stripped word at index `i` exists and passes the validation. -/
def qualAt (ws : List (List Char)) (i : Nat) : Bool :=
  match nthWord ws i with
  | some w => validName (stripNonWord w)
  | none => false

/-- Indices `i` and `i + 1` both carry qualifying stripped words. -/
def fbPairQual (ws : List (List Char)) (i : Nat) : Bool :=
  qualAt ws i && qualAt ws (i + 1)

/-- What the fallback scan returns, per the spec: the first qualifying
adjacent pair at an index below 15 wins, and `n` is its first word. -/
def fbSpec (ws : List (List Char)) (i : Nat) (n : List Char) : Prop :=
  ∃ k, i ≤ k ∧ k < 15 ∧ fbPairQual ws k = true ∧
    (∃ w, nthWord ws k = some w ∧ n = stripNonWord w) ∧
    ∀ j, i ≤ j → j < k → fbPairQual ws j = false

/-! ## Concrete fixtures used by counterexamples and witnesses -/

/-- The transcript of the spec's end-to-end scenario (claim C1). -/
def heyText : List Char := "Hey everyone, Sarah Johnson here, and today I'll be...".data

/-- A transcript whose fallback-scan result contains a digit (claim C4). -/
def mixedText : List Char := "Ab3x Xyz4w".data

/-- A transcript where the first pattern matches invalidly (claim C3). -/
def meHereText : List Char := "Me here, my name is Alexander".data

/-- The spec's no-name end-to-end transcript, without the apostrophe of
`let's` (any concrete input serves the witness; claim C6). -/
def umText : List Char := "Um, okay, lets get started with the project overview.".data

/-- A directory with a pre-existing target file and a temp file (claim C7). -/
def witnessFS : FS := ⟨[("Alice.mp3".data, 7), ("temp_audio_v.mp3".data, 9)]⟩

/-- The temp artifact's path in `witnessFS`. -/
def witnessTemp : List Char := "temp_audio_v.mp3".data

/-- Two transcripts agreeing on their first 500 characters (claim C9). -/
def longTextX : List Char := List.replicate 500 'a' ++ ['X']

/-- Second transcript for claim C9, differing only past character 500. -/
def longTextY : List Char := List.replicate 500 'a' ++ ['Y']

/-! ## Character-class facts -/

theorem letter_wordChar {c : Char} (h : isLetterA c = true) : isWordCharA c = true := by
  simp only [isLetterA, isWordCharA, isDigitA, Bool.or_eq_true, Bool.and_eq_true,
    decide_eq_true_eq] at h ⊢
  omega

theorem letter_not_ws {c : Char} (h : isLetterA c = true) : isWsA c = false := by
  simp only [isLetterA, isWsA, Bool.or_eq_true, Bool.and_eq_true, decide_eq_true_eq,
    Bool.or_eq_false_iff, decide_eq_false_iff_not] at h ⊢
  omega

theorem wordChar_not_ws {c : Char} (h : isWordCharA c = true) : isWsA c = false := by
  simp only [isWordCharA, isLetterA, isDigitA, isWsA, Bool.or_eq_true, Bool.and_eq_true,
    decide_eq_true_eq, Bool.or_eq_false_iff, decide_eq_false_iff_not] at h ⊢
  omega

theorem wordChar_not_dashWs {c : Char} (h : isWordCharA c = true) : isDashWs c = false := by
  simp only [isWordCharA, isLetterA, isDigitA, isDashWs, isWsA, Bool.or_eq_true,
    Bool.and_eq_true, decide_eq_true_eq, Bool.or_eq_false_iff,
    decide_eq_false_iff_not] at h ⊢
  omega

theorem wordChar_keep {c : Char} (h : isWordCharA c = true) : keepChar c = true := by
  simp [keepChar, h]

/-- Unfolding of the four validation conditions. -/
theorem validName_spec (n : List Char) :
    validName n = true ↔
      n ≠ [] ∧ 2 < n.length ∧ toLowerL n ∉ skip_words_lower ∧ startsUpper n = true := by
  simp [validName, Bool.and_eq_true, List.isEmpty_iff, decide_eq_true_eq, and_assoc]

/-! ## The shape of every name `find_first_name` returns -/

theorem stripNonWord_wordChar (s : List Char) : ∀ c ∈ stripNonWord s, isWordCharA c = true :=
  fun _ hc => (List.mem_filter.mp hc).2

theorem tryPriority_shape :
    ∀ (ps : List (List RTok × Nat)) (intro n : List Char),
      tryPriority ps intro = some n → validName n = true ∧ ∃ s, n = stripNonWord s := by
  intro ps
  induction ps with
  | nil => intro intro n h; simp [tryPriority] at h
  | cons hd tl ih =>
    intro intro n h
    obtain ⟨p, gi⟩ := hd
    simp only [tryPriority] at h
    split at h
    · split at h
      · next hv =>
          obtain rfl : patCandidate _ _ _ = n := by injection h
          exact ⟨hv, (pySplit (if _ = 0 then _ else Option.getD _ [])).headD [], rfl⟩
      · exact ih intro n h
    · exact ih intro n h

theorem fbLoop_shape (ws : List (List Char)) :
    ∀ (l : List (List Char)) (i : Nat) (n : List Char),
      fbLoop ws l i = some n → validName n = true ∧ ∃ s, n = stripNonWord s := by
  intro l
  induction l with
  | nil => intro i n h; simp [fbLoop] at h
  | cons w rest ih =>
    intro i n h
    simp only [fbLoop] at h
    split at h
    · next hv =>
        split at h
        · split at h
          · obtain rfl : stripNonWord w = n := by injection h
            exact ⟨hv, w, rfl⟩
          · exact ih (i + 1) n h
        · exact ih (i + 1) n h
    · exact ih (i + 1) n h

theorem find_first_name_shape (text n : List Char) (h : find_first_name text = some n) :
    validName n = true ∧ ∃ s, n = stripNonWord s := by
  simp only [find_first_name] at h
  cases htp : tryPriority priority_patterns (text.take 500) with
  | some m =>
    rw [htp] at h
    obtain rfl : m = n := by injection h
    exact tryPriority_shape _ _ _ htp
  | none =>
    rw [htp] at h
    simp only [fallbackScan] at h
    exact fbLoop_shape _ _ _ _ h

/-- Every returned name is a nonempty word-character token. -/
theorem find_first_name_wordChars (text n : List Char) (h : find_first_name text = some n) :
    (∀ c ∈ n, isWordCharA c = true) ∧ n ≠ [] := by
  obtain ⟨hv, s, rfl⟩ := find_first_name_shape text n h
  exact ⟨stripNonWord_wordChar s, ((validName_spec _).mp hv).1⟩

/-! ## `pySplit`, strip and collapse on uniform tokens -/

theorem pySplitAux_append_nonws (w : List Char) (hw : ∀ c ∈ w, isWsA c = false) :
    ∀ (s acc : List Char), pySplitAux (w ++ s) acc = pySplitAux s (w.reverse ++ acc) := by
  induction w with
  | nil => intro s acc; simp
  | cons c t ih =>
    intro s acc
    have hc : isWsA c = false := hw c (by simp)
    have ht : ∀ d ∈ t, isWsA d = false := fun d hd => hw d (by simp [hd])
    simp only [List.cons_append, pySplitAux, hc, Bool.false_eq_true, if_false,
      List.reverse_cons, List.append_assoc, List.singleton_append]
    exact ih ht s (c :: acc)

/-- A nonempty whitespace-free token splits into just itself. -/
theorem pySplit_single (n : List Char) (hne : n ≠ []) (hnw : ∀ c ∈ n, isWsA c = false) :
    pySplit n = [n] := by
  have h1 : pySplit n = pySplitAux (n ++ []) [] := by simp [pySplit]
  rw [h1, pySplitAux_append_nonws n hnw [] []]
  have h2 : (n.reverse ++ []).isEmpty = false := by
    simp [List.isEmpty_iff, hne]
  simp [pySplitAux, h2, hne]

/-- A word followed by a space splits into the word, then the rest's split. -/
theorem pySplit_word_space (n u : List Char) (hne : n ≠ [])
    (hnw : ∀ c ∈ n, isWsA c = false) :
    pySplit (n ++ ' ' :: u) = n :: pySplit u := by
  have h1 : pySplit (n ++ ' ' :: u) = pySplitAux (' ' :: u) n.reverse := by
    simpa using pySplitAux_append_nonws n hnw (' ' :: u) []
  have h2 : n.reverse.isEmpty = false := by simp [List.isEmpty_iff, hne]
  rw [h1]
  simp [pySplitAux, isWsA, h2, pySplit]

theorem dropWhile_all_false {p : Char → Bool} {l : List Char}
    (h : ∀ c ∈ l, p c = false) : l.dropWhile p = l := by
  cases l with
  | nil => rfl
  | cons c t => simp [List.dropWhile_cons, h c (by simp)]

theorem takeWhile_all_nil {p : Char → Bool} {l : List Char}
    (h : ∀ c ∈ l, p c = false) : l.takeWhile p = [] := by
  cases l with
  | nil => rfl
  | cons c t => simp [List.takeWhile_cons, h c (by simp)]

theorem pyStrip_no_ws (n : List Char) (h : ∀ c ∈ n, isWsA c = false) : pyStrip n = n := by
  simp only [pyStrip]
  rw [dropWhile_all_false h, dropWhile_all_false (fun c hc => h c (List.mem_reverse.mp hc)),
    List.reverse_reverse]

theorem collapseAux_all_false (l : List Char) (h : ∀ c ∈ l, isDashWs c = false) :
    ∀ b, collapseAux l b = l := by
  induction l with
  | nil => intro b; rfl
  | cons c t ih =>
    intro b
    simp only [collapseAux, h c (by simp), Bool.false_eq_true, if_false]
    rw [ih (fun d hd => h d (by simp [hd]))]

/-! ## C10: sanitization is the identity on extracted names -/

/-- C10 — implicit: the filename-sanitization step of `process_video` is
the identity on every name `find_first_name` can return (such names are
nonempty tokens of word characters, which the strip/collapse steps leave
unchanged), so a found name yields exactly `<name>.mp3`. -/
theorem C10_sanitize_identity (text n : List Char) (h : find_first_name text = some n) :
    computeFinalName (some n) = n ++ ['.', 'm', 'p', '3'] := by
  obtain ⟨hword, hne⟩ := find_first_name_wordChars text n h
  have hnw : ∀ c ∈ n, isWsA c = false := fun c hc => wordChar_not_ws (hword c hc)
  have hempty : n.isEmpty = false := by simp [List.isEmpty_iff, hne]
  simp only [computeFinalName, hempty, Bool.false_eq_true, if_false]
  rw [pySplit_single n hne hnw]
  have hkeep : n.filter keepChar = n :=
    List.filter_eq_self.mpr (fun c hc => wordChar_keep (hword c hc))
  simp only [List.headD_cons, hkeep]
  rw [pyStrip_no_ws n hnw]
  simp only [collapseDashWs]
  rw [collapseAux_all_false n (fun c hc => wordChar_not_dashWs (hword c hc)) false]

/-- C10 witness: a concrete run through a priority pattern. -/
theorem C10_witness :
    find_first_name "I am Robert today.".data = some "Robert".data ∧
      computeFinalName (some "Robert".data) = "Robert".data ++ ['.', 'm', 'p', '3'] :=
  ⟨by decide, C10_sanitize_identity "I am Robert today.".data "Robert".data (by decide)⟩

/-! ## C4: the shape of a returned candidate name -/

/-- C4 counterexample: the fallback scan can return a token containing a
digit, so a returned name need not be a token of letters: on
`"Ab3x Xyz4w"` the extractor returns `"Ab3x"`. -/
theorem C4_letters_counterexample :
    find_first_name mixedText = some "Ab3x".data ∧
      "Ab3x".data.all isLetterA = false := by decide

/-- C4 amended: every name returned by `find_first_name` (either phase) is
a nonempty token of *word characters* (letters, digits, underscore) whose
first character is an uppercase letter, has length > 2, and whose
lowercase form is not in the stopword set; the `Option` result type gives
at most one candidate per transcript. -/
theorem C4_returned_name_amended (text n : List Char)
    (h : find_first_name text = some n) :
    (∀ c ∈ n, isWordCharA c = true) ∧ startsUpper n = true ∧ 2 < n.length ∧
      toLowerL n ∉ skip_words_lower := by
  obtain ⟨hv, _, _⟩ := find_first_name_shape text n h
  obtain ⟨hne, hlen, hskip, hup⟩ := (validName_spec n).mp hv
  exact ⟨(find_first_name_wordChars text n h).1, hup, hlen, hskip⟩

/-- C4 witness: the amended statement at the concrete counterexample input. -/
theorem C4_witness :
    find_first_name mixedText = some "Ab3x".data ∧
      ((∀ c ∈ "Ab3x".data, isWordCharA c = true) ∧ startsUpper "Ab3x".data = true ∧
        2 < "Ab3x".data.length ∧ toLowerL "Ab3x".data ∉ skip_words_lower) :=
  ⟨by decide, C4_returned_name_amended mixedText "Ab3x".data (by decide)⟩

/-! ## C1: the end-to-end `"Sarah Johnson here"` scenario -/

/-- C1 counterexample: on the spec's transcript the extractor does *not*
return `"Sarah"`: `match.group(0)` of `([A-Z][a-z]+)\s+here\b` is
`"Johnson here"`, whose first whitespace token is `"Johnson"`. -/
theorem C1_sarah_counterexample :
    find_first_name heyText = some "Johnson".data ∧
      find_first_name heyText ≠ some "Sarah".data := by decide

/-- C1 amended: for the transcript beginning
`"Hey everyone, Sarah Johnson here, ..."` the extractor returns
`"Johnson"` — the capitalized word immediately preceding `"here"` — and
the resulting output filename is `Johnson.mp3`. -/
theorem C1_johnson_amended :
    find_first_name heyText = some "Johnson".data ∧
      computeFinalName (find_first_name heyText) = "Johnson.mp3".data := by decide

/-! ## C8: the cleanup contract of `transcribe_audio` -/

/-- C8 — the claim is about the code's cleanup guarantee and the code
violates it (code bug): when `import whisper` fails and the retry after
`pip install` then raises, the exception escapes the `except ImportError`
handler uncaught, leaving the temporary ffmpeg directory in place; and no
exit path (including both success paths) ever removes the temporary
directory from `PATH`. -/
theorem C8_transcribe_cleanup_bug :
    (transcribe_audio_model false false false).raised = true ∧
      (transcribe_audio_model false false false).tempDirRemains = true ∧
      ∀ importOk firstOk retryOk,
        (transcribe_audio_model importOk firstOk retryOk).pathStillModified = true := by
  refine ⟨rfl, rfl, ?_⟩
  intro importOk firstOk retryOk
  cases importOk <;> cases firstOk <;> cases retryOk <;> rfl

/-! ## C3: first *valid* match wins, not first syntactic match -/

/-- C3: in the priority-pattern loop, a pattern whose (unique, leftmost)
match yields a candidate failing validation does not stop the search: the
loop's result is exactly the result of the remaining patterns (and, when
those all fail, `find_first_name` still falls through to the fallback
scan), so a later pattern or the fallback can still produce a name. -/
theorem C3_invalid_match_continues (p : List RTok) (gi : Nat)
    (ps : List (List RTok × Nat)) (intro whole : List Char) (capt : Option (List Char))
    (hm : reSearch p intro = some (whole, capt))
    (hv : validName (patCandidate gi whole capt) = false) :
    tryPriority ((p, gi) :: ps) intro = tryPriority ps intro := by
  simp only [tryPriority, hm, hv, Bool.false_eq_true, if_false]

/-- C3 witness: on `"Me here, my name is Alexander"` the first pattern
matches `"Me here"` but `"Me"` (length 2, stopword) is invalid; the loop
continues and the second pattern then yields `"Alexander"`. -/
theorem C3_witness :
    validName (patCandidate 0 "Me here".data (some "Me".data)) = false ∧
      tryPriority priority_patterns meHereText =
        tryPriority priority_patterns.tail meHereText ∧
      find_first_name meHereText = some "Alexander".data :=
  ⟨by decide,
    C3_invalid_match_continues pat1 0 priority_patterns.tail meHereText
      "Me here".data (some "Me".data) (by decide) (by decide),
    by decide⟩

/-! ## C7: an existing target file is never overwritten -/

theorem lookupA_removeA_self (l : List (List Char × Nat)) (p : List Char) :
    lookupA (removeA l p) p = none := by
  induction l with
  | nil => rfl
  | cons e t ih =>
    by_cases he : e.1 = p
    · simp [removeA, he, ih]
    · simp [removeA, he, lookupA, ih]

theorem lookupA_removeA_other (l : List (List Char × Nat)) (p q : List Char)
    (h : q ≠ p) : lookupA (removeA l p) q = lookupA l q := by
  induction l with
  | nil => rfl
  | cons e t ih =>
    simp only [removeA]
    by_cases he : e.1 = p
    · have hq : ¬ e.1 = q := by rw [he]; exact fun hq => h hq.symm
      rw [if_pos he, ih]
      conv_rhs => rw [lookupA]
      rw [if_neg hq]
    · rw [if_neg he]
      by_cases heq : e.1 = q
      · simp [lookupA, heq]
      · simp [lookupA, heq, ih]

/-- C7: when the computed target filename already exists, `process_video`
deletes the temporary audio file, leaves the pre-existing target's content
unchanged, and returns `True` — which `main` counts as a success, never as
a failure. -/
theorem C7_target_exists_skip (fs : FS) (nameOpt : Option (List Char)) (temp : List Char)
    (hex : fsExists fs (computeFinalName nameOpt) = true)
    (hne : temp ≠ computeFinalName nameOpt) :
    (finalizePhase nameOpt fs temp).2 = true ∧
      fsLookup (finalizePhase nameOpt fs temp).1 (computeFinalName nameOpt) =
        fsLookup fs (computeFinalName nameOpt) ∧
      fsExists (finalizePhase nameOpt fs temp).1 temp = false ∧
      ∀ s f, tallyStep (finalizePhase nameOpt fs temp).2 s f = (s + 1, f) := by
  simp only [finalizePhase, hex, if_true]
  refine ⟨trivial, ?_, ?_, ?_⟩
  · exact lookupA_removeA_other fs.files temp (computeFinalName nameOpt) (fun h => hne h.symm)
  · simp [fsExists, fsLookup, fsUnlink, lookupA_removeA_self]
  · intro s f; simp [tallyStep]

/-- C7 witness: a directory already holding `Alice.mp3` and a temp file. -/
theorem C7_witness :
    fsExists witnessFS (computeFinalName (some "Alice".data)) = true ∧
      ((finalizePhase (some "Alice".data) witnessFS witnessTemp).2 = true ∧
        fsLookup (finalizePhase (some "Alice".data) witnessFS witnessTemp).1
            (computeFinalName (some "Alice".data)) =
          fsLookup witnessFS (computeFinalName (some "Alice".data)) ∧
        fsExists (finalizePhase (some "Alice".data) witnessFS witnessTemp).1 witnessTemp =
          false ∧
        ∀ s f,
          tallyStep (finalizePhase (some "Alice".data) witnessFS witnessTemp).2 s f =
            (s + 1, f)) :=
  ⟨by decide, C7_target_exists_skip witnessFS (some "Alice".data) witnessTemp
    (by decide) (by decide)⟩

/-! ## C9: purity and the 500-character window -/

/-- C9: `find_first_name` is a pure function of its argument (embedded as a
Lean function it is deterministic by construction), and its result depends
only on the transcript's first 500 characters: transcripts agreeing there
are mapped to identical results. -/
theorem C9_window_500 (t1 t2 : List Char) (h : t1.take 500 = t2.take 500) :
    find_first_name t1 = find_first_name t2 := by
  simp only [find_first_name, h]

/-- C9 witness: two transcripts differing only past character 500. -/
theorem C9_witness :
    longTextX.take 500 = longTextY.take 500 ∧
      find_first_name longTextX = find_first_name longTextY := by
  have hx : longTextX.take 500 = List.replicate 500 'a' := by
    rw [longTextX]
    have h := List.take_left (List.replicate 500 'a') ['X']
    rwa [List.length_replicate] at h
  have hy : longTextY.take 500 = List.replicate 500 'a' := by
    rw [longTextY]
    have h := List.take_left (List.replicate 500 'a') ['Y']
    rwa [List.length_replicate] at h
  exact ⟨hx.trans hy.symm, C9_window_500 longTextX longTextY (hx.trans hy.symm)⟩

/-! ## C2: transcripts whose leading text matches `"<Name> here"` -/

theorem takeWhile_append_all {p : Char → Bool} (l1 l2 : List Char)
    (h : ∀ c ∈ l1, p c = true) : (l1 ++ l2).takeWhile p = l1 ++ l2.takeWhile p := by
  induction l1 with
  | nil => simp
  | cons c t ih =>
    simp only [List.cons_append, List.takeWhile_cons, h c (by simp), if_true]
    rw [ih (fun d hd => h d (by simp [hd]))]

theorem dropWhile_append_all {p : Char → Bool} (l1 l2 : List Char)
    (h : ∀ c ∈ l1, p c = true) : (l1 ++ l2).dropWhile p = l2.dropWhile p := by
  induction l1 with
  | nil => simp
  | cons c t ih =>
    simp only [List.cons_append, List.dropWhile_cons, h c (by simp), if_true]
    exact ih (fun d hd => h d (by simp [hd]))

theorem take_append_of_le {α : Type} (l1 l2 : List α) :
    ∀ n, l1.length ≤ n → (l1 ++ l2).take n = l1 ++ l2.take (n - l1.length) := by
  induction l1 with
  | nil => intro n _; simp
  | cons c t ih =>
    intro n hn
    cases n with
    | zero => simp at hn
    | succ m =>
      simp only [List.cons_append, List.take_succ_cons, List.length_cons]
      rw [ih m (by simp at hn; omega)]
      simp [Nat.succ_sub_succ]

/-- A case-insensitive literal always consumes an identical copy of itself. -/
theorem stripCI_self : ∀ (w v : List Char), stripCI w (w ++ v) = some (w, v) := by
  intro w
  induction w with
  | nil => intro v; rfl
  | cons c t ih =>
    intro v
    simp [stripCI, ih]

theorem wbOk_take (l : List Char) (k : Nat) (hb : isWordCharA (l.headD ' ') = false) :
    wbOk (l.take k) = true := by
  cases l with
  | nil => simp [wbOk]
  | cons c t =>
    cases k with
    | zero => simp [wbOk]
    | succ m =>
      simp only [List.headD_cons] at hb
      simp [List.take_succ_cons, wbOk, hb]

/-- The successful match of `([A-Z][a-z]+)\s+here\b` at the start of
`Name ++ " here" ++ v`. -/
theorem matchToks_pat1 (Name v : List Char) (hlet : ∀ c ∈ Name, isLetterA c = true)
    (hlen : 2 < Name.length) (hwb : wbOk v = true) :
    matchToks pat1 (Name ++ ' ' :: (hereL ++ v)) =
      some (Name ++ ' ' :: hereL, some Name) := by
  have hsp : isLetterA ' ' = false := by decide
  have ht1 : (Name ++ ' ' :: (hereL ++ v)).takeWhile isLetterA = Name := by
    rw [takeWhile_append_all _ _ hlet]
    simp [List.takeWhile_cons, hsp]
  have hd1 : (Name ++ ' ' :: (hereL ++ v)).dropWhile isLetterA = ' ' :: (hereL ++ v) := by
    rw [dropWhile_append_all _ _ hlet]
    simp [List.dropWhile_cons, hsp]
  have ht2 : (' ' :: (hereL ++ v)).takeWhile isWsA = [' '] := by
    simp [List.takeWhile_cons, isWsA, hereL, List.takeWhile_cons]
  have hd2 : (' ' :: (hereL ++ v)).dropWhile isWsA = hereL ++ v := by
    simp [List.dropWhile_cons, isWsA, hereL, List.dropWhile_cons]
  simp only [pat1, matchToks, ht1, hd1, ht2, hd2]
  rw [if_neg (by omega : ¬ Name.length < 2)]
  simp only [List.isEmpty_cons, Bool.false_eq_true, if_false, stripCI_self, hwb, if_true]
  simp

/-- C2: for every transcript whose leading text is `"<Name> here"` (a
single capitalized letters-only word, valid as a candidate: length > 2,
not a stopword, first letter uppercase; short enough that the phrase lies
in the 500-character window; followed by a non-word character or the end),
`find_first_name` returns exactly `<Name>`, casing preserved. -/
theorem C2_name_here_returns_name (Name rest : List Char)
    (hlet : ∀ c ∈ Name, isLetterA c = true)
    (hv : validName Name = true)
    (hlen : Name.length ≤ 495)
    (hb : isWordCharA (rest.headD ' ') = false) :
    find_first_name (Name ++ ' ' :: (hereL ++ rest)) = some Name := by
  obtain ⟨hne, hlen3, hskip, hup⟩ := (validName_spec Name).mp hv
  have hnw : ∀ c ∈ Name, isWsA c = false := fun c hc => letter_not_ws (hlet c hc)
  -- the 500-character window keeps `Name ++ " here"` and truncates the rest
  have hintro : (Name ++ ' ' :: (hereL ++ rest)).take 500
      = Name ++ ' ' :: (hereL ++ rest.take (495 - Name.length)) := by
    rw [take_append_of_le _ _ 500 (by omega)]
    obtain ⟨m, hm⟩ : ∃ m, 500 - Name.length = m + 1 := ⟨499 - Name.length, by omega⟩
    rw [hm, List.take_succ_cons]
    rw [take_append_of_le _ _ m (by simp [hereL]; omega)]
    have : m - hereL.length = 495 - Name.length := by simp [hereL]; omega
    rw [this]
  -- the first pattern matches at position zero with capture `Name`
  have hmatch := matchToks_pat1 Name (rest.take (495 - Name.length)) hlet hlen3
    (wbOk_take rest (495 - Name.length) hb)
  have hsearch : reSearch pat1 (Name ++ ' ' :: (hereL ++ rest.take (495 - Name.length)))
      = some (Name ++ ' ' :: hereL, some Name) := by
    cases hN : Name with
    | nil => exact absurd hN hne
    | cons c0 t0 =>
      rw [← hN]
      rw [hN, List.cons_append] at hmatch ⊢
      simp only [reSearch, hmatch]
  -- the candidate is `Name` itself and it is valid
  have hcand : patCandidate 0 (Name ++ ' ' :: hereL) (some Name) = Name := by
    simp only [patCandidate, reduceIte]
    rw [pySplit_word_space Name hereL hne hnw]
    simp only [List.headD_cons]
    exact List.filter_eq_self.mpr (fun c hc => letter_wordChar (hlet c hc))
  simp only [find_first_name, hintro, priority_patterns, tryPriority, hsearch, hcand, hv,
    if_true]

/-- C2 witness: the transcript `"Sarah here, welcome"`. -/
theorem C2_witness :
    validName "Sarah".data = true ∧
      find_first_name ("Sarah".data ++ ' ' :: (hereL ++ ", welcome".data)) =
        some "Sarah".data :=
  ⟨by decide,
    C2_name_here_returns_name "Sarah".data ", welcome".data (by decide) (by decide)
      (by decide) (by decide)⟩

/-! ## C5 and C6: characterization of the fallback scan -/

theorem nthWord_drop (ws : List (List Char)) :
    ∀ (i j : Nat), nthWord (ws.drop i) j = nthWord ws (i + j) := by
  intro i
  induction i generalizing ws with
  | zero => intro j; simp
  | succ m ih =>
    intro j
    cases ws with
    | nil => simp [nthWord]
    | cons w t =>
      rw [List.drop_succ_cons, ih t j]
      have h1 : m + 1 + j = (m + j) + 1 := by omega
      rw [h1]
      rfl

theorem drop_succ_tail {α : Type} (l : List α) : ∀ i, l.drop (i + 1) = (l.drop i).tail := by
  induction l with
  | nil => intro i; simp
  | cons a t ih =>
    intro i
    cases i with
    | zero => simp
    | succ m =>
      rw [List.drop_succ_cons, ih m, List.drop_succ_cons]

theorem nthWord_none (ws : List (List Char)) : ∀ k, ws.length ≤ k → nthWord ws k = none := by
  induction ws with
  | nil => intro k _; cases k <;> rfl
  | cons w t ih =>
    intro k hk
    cases k with
    | zero => simp at hk
    | succ m => simpa [nthWord] using ih m (by simp at hk; omega)

theorem fbPairQual_ge_length (ws : List (List Char)) (j : Nat) (h : ws.length ≤ j + 1) :
    fbPairQual ws j = false := by
  simp [fbPairQual, qualAt, nthWord_none ws (j + 1) h]

theorem fbPairQual_all (ws : List (List Char)) (N : Nat)
    (h1 : ∀ j < N, fbPairQual ws j = false) (h2 : ws.length ≤ N + 1) :
    ∀ j, fbPairQual ws j = false := fun j =>
  if hj : j < N then h1 j hj else fbPairQual_ge_length ws j (by omega)

/-- Dropping a leading index whose pair does not qualify does not change
which (first) qualifying pair the spec predicate selects. -/
theorem fbSpec_shift (ws : List (List Char)) (i : Nat) (n : List Char)
    (hp : fbPairQual ws i = false) : fbSpec ws (i + 1) n ↔ fbSpec ws i n := by
  constructor
  · rintro ⟨k, hik, hk15, hpk, hw, hmin⟩
    refine ⟨k, by omega, hk15, hpk, hw, fun j hj hjk => ?_⟩
    rcases Nat.eq_or_lt_of_le hj with heq | hlt
    · rw [← heq]; exact hp
    · exact hmin j (by omega) hjk
  · rintro ⟨k, hik, hk15, hpk, hw, hmin⟩
    have hki : k ≠ i := by
      intro h
      rw [h, hp] at hpk
      exact Bool.false_ne_true hpk
    exact ⟨k, by omega, hk15, hpk, hw, fun j hj hjk => hmin j (by omega) hjk⟩

/-- The fallback loop, started at index `i` on the remaining slice of the
first fifteen words, returns `some n` exactly when the spec predicate
holds from `i`. -/
theorem fbLoop_char (ws : List (List Char)) :
    ∀ (l : List (List Char)) (i : Nat), l = (ws.drop i).take (15 - i) →
      ∀ n, (fbLoop ws l i = some n ↔ fbSpec ws i n) := by
  intro l
  induction l with
  | nil =>
    intro i hl n
    simp only [fbLoop]
    constructor
    · intro h; exact absurd h (by simp)
    · rintro ⟨k, hik, hk15, hpk, _, _⟩
      exfalso
      rcases List.take_eq_nil_iff.mp hl.symm with h15 | hdrop
      · omega
      · have hnone : nthWord ws k = none := by
          have h1 := (nthWord_drop ws i (k - i)).symm
          rw [hdrop] at h1
          have h2 : i + (k - i) = k := by omega
          rw [h2] at h1
          simpa [nthWord] using h1
        rw [fbPairQual, qualAt, hnone] at hpk
        simp at hpk
  | cons w rest ih =>
    intro i hl n
    obtain ⟨d', hd, hrest, hi15⟩ :
        ∃ d', ws.drop i = w :: d' ∧ rest = (ws.drop (i + 1)).take (15 - (i + 1)) ∧
          i < 15 := by
      cases hdrop : ws.drop i with
      | nil => rw [hdrop] at hl; simp at hl
      | cons w2 d' =>
        rw [hdrop] at hl
        cases h15 : 15 - i with
        | zero => rw [h15] at hl; simp at hl
        | succ m =>
          rw [h15, List.take_succ_cons] at hl
          injection hl with hw hr
          subst hw
          refine ⟨d', rfl, ?_, by omega⟩
          have h1 : ws.drop (i + 1) = d' := by
            rw [drop_succ_tail, hdrop, List.tail_cons]
          rw [hr, h1]
          have h2 : m = 15 - (i + 1) := by omega
          rw [h2]
    have hwi : nthWord ws i = some w := by
      have h1 := (nthWord_drop ws i 0).symm
      rw [hd] at h1
      simpa [nthWord] using h1
    have hd1 : ws.drop (i + 1) = d' := by rw [drop_succ_tail, hd, List.tail_cons]
    cases hq : validName (stripNonWord w) with
    | false =>
      have hL : fbLoop ws (w :: rest) i = fbLoop ws rest (i + 1) := by
        simp [fbLoop, hq]
      have hpi : fbPairQual ws i = false := by
        simp [fbPairQual, qualAt, hwi, hq]
      rw [hL, ih (i + 1) hrest n]
      exact fbSpec_shift ws i n hpi
    | true =>
      cases hnw0 : nthWord ws (i + 1) with
      | none =>
        have hL : fbLoop ws (w :: rest) i = fbLoop ws rest (i + 1) := by
          simp [fbLoop, hq, hnw0]
        have hpi : fbPairQual ws i = false := by
          simp [fbPairQual, qualAt, hnw0]
        rw [hL, ih (i + 1) hrest n]
        exact fbSpec_shift ws i n hpi
      | some nw =>
        cases hq2 : validName (stripNonWord nw) with
        | false =>
          have hL : fbLoop ws (w :: rest) i = fbLoop ws rest (i + 1) := by
            simp [fbLoop, hq, hnw0, hq2]
          have hpi : fbPairQual ws i = false := by
            simp [fbPairQual, qualAt, hwi, hq, hnw0, hq2]
          rw [hL, ih (i + 1) hrest n]
          exact fbSpec_shift ws i n hpi
        | true =>
          have hL : fbLoop ws (w :: rest) i = some (stripNonWord w) := by
            simp [fbLoop, hq, hnw0, hq2]
          rw [hL]
          constructor
          · intro h
            obtain rfl : stripNonWord w = n := by injection h
            exact ⟨i, le_refl i, hi15,
              by simp [fbPairQual, qualAt, hwi, hq, hnw0, hq2],
              ⟨w, hwi, rfl⟩, fun j hj hjk => absurd hjk (by omega)⟩
          · rintro ⟨k, hik, hk15, hpk, ⟨w2, hw2, hn⟩, hmin⟩
            rcases Nat.eq_or_lt_of_le hik with heq | hlt
            · rw [← heq] at hw2
              rw [hwi] at hw2
              injection hw2 with hw2
              rw [hn, hw2]
            · exfalso
              have hmini := hmin i (le_refl i) hlt
              simp [fbPairQual, qualAt, hwi, hnw0, hq, hq2] at hmini

/-- C5: the fallback scan — restricted to the first 200 characters and the
first 15 words — returns `n` exactly when some index below 15 holds the
first adjacent pair of stripped words that both pass validation
(uppercase start, length > 2, not a stopword), and `n` is the first word
of that pair; in particular a qualifying word with no qualifying successor
is never returned, and the first qualifying pair wins. -/
theorem C5_fallback_pair_characterization (intro n : List Char) :
    fallbackScan intro = some n ↔ fbSpec (pySplit (intro.take 200)) 0 n := by
  have h := fbLoop_char (pySplit (intro.take 200))
    ((pySplit (intro.take 200)).take 15) 0 (by simp) n
  simpa [fallbackScan] using h

/-- C6: a transcript on which no priority pattern produces a valid
candidate and whose first 200 characters contain no adjacent qualifying
pair yields no name at all — `None`, an absence rather than an error. -/
theorem C6_no_pattern_no_pair_none (text : List Char)
    (h1 : tryPriority priority_patterns (text.take 500) = none)
    (h2 : ∀ j, fbPairQual (pySplit (text.take 200)) j = false) :
    find_first_name text = none := by
  simp only [find_first_name, h1]
  have htake : (text.take 500).take 200 = text.take 200 := by
    rw [List.take_take]
    norm_num
  cases hres : fallbackScan (text.take 500) with
  | none => rfl
  | some n =>
    exfalso
    have hch := (fbLoop_char (pySplit ((text.take 500).take 200))
      ((pySplit ((text.take 500).take 200)).take 15) 0 (by simp) n).mp
      (by simpa [fallbackScan] using hres)
    obtain ⟨k, _, _, hpk, _, _⟩ := hch
    rw [htake, h2 k] at hpk
    exact Bool.false_ne_true hpk

/-- C6 witness: the spec's no-name transcript. -/
theorem C6_witness : find_first_name umText = none :=
  C6_no_pattern_no_pair_none umText (by decide)
    (fbPairQual_all (pySplit (umText.take 200)) 9 (by decide) (by decide))

end ExtractAudio
